import Mathlib

/-!
Shallow embedding of the analytics aggregation module
(`src/utils/analytics-collector/python/aggregate.py`).

Python dictionaries are modelled as insertion-ordered association lists,
Python sets as duplicate-free lists in insertion order, optional / absent
dictionary fields as `Option`, and Python's stable
`sorted(..., key=lambda x: x[1], reverse=True)` as an insertion sort that is
stable and descending by the second component (any stable descending sort
computes the same list).  `round((count / total) * 100)` is modelled
faithfully as IEEE-754 binary64 arithmetic: the correctly rounded double
quotient of the two integers, the correctly rounded product with the exactly
representable 100, and Python's ties-to-even rounding of that double to an
integer; only the binary64 exponent range is not enforced, since reaching
overflow or subnormals would take logs of around `2 ^ 1000` entries.
-/

namespace Aricanga

/-- An event record: an open mapping with optional fields, of which the
aggregation code reads `type`, `sessionId`, `timestamp`, `payload`
(with `knotPath`, `choiceIndex`, `choiceText`) and `context` (with `knot`). -/
structure Payload where
  knotPath : Option String
  choiceIndex : Option Int
  choiceText : Option String
deriving DecidableEq, Repr

structure EvContext where
  knot : Option String
deriving DecidableEq, Repr

structure Entry where
  type : Option String
  sessionId : Option String
  timestamp : Option Int
  payload : Option Payload
  context : Option EvContext
deriving DecidableEq, Repr

/-- The empty dict used by `e.get("payload") or \x7b\x7d`. -/
def emptyPayload : Payload := ⟨none, none, none⟩

def emptyEvContext : EvContext := ⟨none⟩

/-- Models `e.get("type") == "choice"`. -/
def isChoiceB (e : Entry) : Bool := e.type == some "choice"

/-- Models `e.get("sessionId", "")`. -/
def sidOf (e : Entry) : String := e.sessionId.getD ""

/-- Models `e.get("timestamp", 0)`. -/
def tsOf (e : Entry) : Int := e.timestamp.getD 0

/-- Models `e.get("payload") or \x7b\x7d`. -/
def payloadOf (e : Entry) : Payload := e.payload.getD emptyPayload

/-- Models `e.get("context") or \x7b\x7d`. -/
def contextOf (e : Entry) : EvContext := e.context.getD emptyEvContext

/-- Models `payload.get("knotPath", "unknown")` as used by
`compute_path_stats` and `top_paths`. -/
def pathKey (e : Entry) : String := (payloadOf e).knotPath.getD "unknown"

/-- Models `payload.get("choiceIndex", -1)`. -/
def idxKey (e : Entry) : Int := (payloadOf e).choiceIndex.getD (-1)

/-- Models `payload.get("choiceText", "")`. -/
def txtKey (e : Entry) : String := (payloadOf e).choiceText.getD ""

/-- Python's `a or b` on an optional string `a`: `b` when `a` is absent or
empty (falsy), else the value of `a`. -/
def pyOrS (a : Option String) (b : String) : String :=
  match a with
  | none => b
  | some s => if s = "" then b else s

/-- Models `payload.get("knotPath") or context.get("knot") or "unknown"`
from `compute_choice_stats`. -/
def choiceKnot (e : Entry) : String :=
  pyOrS (payloadOf e).knotPath (pyOrS (contextOf e).knot "unknown")

/-- Models the f-string `f"\x7bknot\x7d:\x7bidx\x7d"`. -/
def choiceKey (e : Entry) : String :=
  choiceKnot e ++ ":" ++ toString (idxKey e)

/-- First-match lookup in an association list (a Python dict read). -/
def lookupA {κ β : Type} [DecidableEq κ] : List (κ × β) → κ → Option β
  | [], _ => none
  | (k', v) :: rest, k => if k' = k then some v else lookupA rest k

/-- Models `d[k] = d.get(k, 0) + 1` on an insertion-ordered dict. -/
def bump : List (String × Nat) → String → List (String × Nat)
  | [], k => [(k, 1)]
  | (k', v) :: rest, k =>
      if k' = k then (k', v + 1) :: rest else (k', v) :: bump rest k

/-- A `\x7bcount, text\x7d` cell of the path distribution. -/
structure Cell where
  count : Nat
  text : String
deriving DecidableEq, Repr

/-- Models the inner-dict update of `compute_path_stats`: initialize the cell
to count 0 with the current entry's text if absent, then increment count. -/
def updCell : List (Int × Cell) → Int → String → List (Int × Cell)
  | [], idx, txt => [(idx, ⟨1, txt⟩)]
  | (i, c) :: rest, idx, txt =>
      if i = idx then (i, ⟨c.count + 1, c.text⟩) :: rest
      else (i, c) :: updCell rest idx txt

/-- Models the `by_path` two-level dict update of `compute_path_stats`. -/
def updPath : List (String × List (Int × Cell)) → String → Int → String →
    List (String × List (Int × Cell))
  | [], p, idx, txt => [(p, updCell [] idx txt)]
  | (p', inner) :: rest, p, idx, txt =>
      if p' = p then (p', updCell inner idx txt) :: rest
      else (p', inner) :: updPath rest p idx txt

/-- Models `set.add`: a duplicate-free list in insertion order. -/
def addNew (l : List String) (s : String) : List String :=
  if s ∈ l then l else l ++ [s]

/-- One iteration of the `for c in choices` loop of `compute_path_stats`:
record the session id and update `by_path`. -/
def pathStep (acc : List String × List (String × List (Int × Cell)))
    (c : Entry) : List String × List (String × List (Int × Cell)) :=
  (addNew acc.1 (sidOf c), updPath acc.2 (pathKey c) (idxKey c) (txtKey c))

/-- The loop of `compute_path_stats` over the filtered choices, yielding the
`sessions` set and the `by_path` dict. -/
def pathFold (entries : List Entry) :
    List String × List (String × List (Int × Cell)) :=
  (entries.filter isChoiceB).foldl pathStep ([], [])

/-- The `by_path` dict of `compute_path_stats`, before choice-index keys are
rendered as strings. -/
def by_path (entries : List Entry) : List (String × List (Int × Cell)) :=
  (pathFold entries).2

structure PathStats where
  totalChoices : Nat
  uniqueSessions : Nat
  pathDistribution : List (String × List (String × Cell))
deriving DecidableEq, Repr

/-- Models `compute_path_stats`, the string rendering of the integer
choice-index keys included. -/
def compute_path_stats (entries : List Entry) : PathStats :=
  let choices := entries.filter isChoiceB
  let st := pathFold entries
  { totalChoices := choices.length
    uniqueSessions := st.1.length
    pathDistribution :=
      st.2.map (fun pi => (pi.1, pi.2.map (fun ic => (toString ic.1, ic.2)))) }

/-- The per-session accumulator of `compute_session_summaries`. -/
structure SessState where
  sessionId : String
  startTime : Int
  endTime : Int
  choiceCount : Nat
  paths : List String
deriving DecidableEq, Repr

structure SessionSummary where
  sessionId : String
  startTime : Int
  endTime : Int
  choiceCount : Nat
  paths : List String
  durationMs : Int
deriving DecidableEq, Repr

/-- The body of the `for entry in entries` loop applied to a session record
that is already present (or just initialized): min/max the timestamps, and on
a choice entry bump the count and add a truthy (non-empty) `knotPath`. -/
def touchSess (s : SessState) (e : Entry) : SessState :=
  let ts := tsOf e
  let s1 := { s with startTime := min s.startTime ts,
                     endTime := max s.endTime ts }
  if isChoiceB e then
    let s2 := { s1 with choiceCount := s1.choiceCount + 1 }
    match (payloadOf e).knotPath with
    | some kp => if kp = "" then s2 else { s2 with paths := addNew s2.paths kp }
    | none => s2
  else s1

/-- Insert-if-absent-then-mutate on the `sessions` dict: apply `f` to the
existing record, or to the fresh record when the key is new. -/
def upsertSess : List (String × SessState) → String → SessState →
    (SessState → SessState) → List (String × SessState)
  | [], k, fresh, f => [(k, f fresh)]
  | (k', v) :: rest, k, fresh, f =>
      if k' = k then (k', f v) :: rest
      else (k', v) :: upsertSess rest k fresh f

/-- One iteration of the loop of `compute_session_summaries`. -/
def sessStep (m : List (String × SessState)) (e : Entry) :
    List (String × SessState) :=
  upsertSess m (sidOf e) ⟨sidOf e, tsOf e, tsOf e, 0, []⟩ (fun s => touchSess s e)

/-- Models `compute_session_summaries`. -/
def compute_session_summaries (entries : List Entry) : List SessionSummary :=
  (entries.foldl sessStep []).map (fun kv =>
    ⟨kv.2.sessionId, kv.2.startTime, kv.2.endTime, kv.2.choiceCount,
      kv.2.paths, kv.2.endTime - kv.2.startTime⟩)

/-- The `path_counts` dict of `top_paths`, in insertion (first-seen) order. -/
def pathCountsOf (entries : List Entry) : List (String × Nat) :=
  (entries.filter isChoiceB).foldl (fun m c => bump m (pathKey c)) []

/-- The descending-by-count order used by
`sorted(path_counts.items(), key=lambda x: x[1], reverse=True)`. -/
def countGe (a b : String × Nat) : Prop := b.2 ≤ a.2

instance : DecidableRel countGe := fun a b =>
  inferInstanceAs (Decidable (b.2 ≤ a.2))

instance : IsTotal (String × Nat) countGe := ⟨fun a b => Nat.le_total b.2 a.2⟩

instance : IsTrans (String × Nat) countGe :=
  ⟨fun _ _ _ h1 h2 => Nat.le_trans h2 h1⟩

/-- The `sorted_paths` list of `top_paths`: a stable descending sort by
count, modelled by insertion sort. -/
def sortedPathsOf (entries : List Entry) : List (String × Nat) :=
  List.insertionSort countGe (pathCountsOf entries)

structure TopPath where
  path : String
  count : Nat
deriving DecidableEq, Repr

/-- Models `top_paths`. -/
def top_paths (entries : List Entry) (limit : Nat) : List TopPath :=
  ((sortedPathsOf entries).take limit).map (fun pc => ⟨pc.1, pc.2⟩)

/-- A `\x7bcount, knot\x7d` record of the `choice_counts` dict. -/
structure CCount where
  count : Nat
  knot : String
deriving DecidableEq, Repr

/-- Models the `choice_counts` update: initialize `\x7bcount 0, knot\x7d` if
the key is absent, then increment the count (the stored knot stays the first
entry's knot). -/
def bumpCC : List (String × CCount) → String → String → List (String × CCount)
  | [], k, knot => [(k, ⟨1, knot⟩)]
  | (k', v) :: rest, k, knot =>
      if k' = k then (k', ⟨v.count + 1, v.knot⟩) :: rest
      else (k', v) :: bumpCC rest k knot

/-- The `knot_totals` dict of `compute_choice_stats`. -/
def knotTotalsOf (entries : List Entry) : List (String × Nat) :=
  (entries.filter isChoiceB).foldl (fun m c => bump m (choiceKnot c)) []

/-- The `choice_counts` dict of `compute_choice_stats`. -/
def choiceCountsOf (entries : List Entry) : List (String × CCount) :=
  (entries.filter isChoiceB).foldl
    (fun m c => bumpCC m (choiceKey c) (choiceKnot c)) []

/-- Models `choice_id.split(":")[0] if ":" in choice_id else choice_id`:
the substring before the first colon, or the whole string without one. -/
def knotOfId (cid : String) : String :=
  if ':' ∈ cid.data then ⟨cid.data.takeWhile (fun ch => ch ≠ ':')⟩ else cid

/-- Number of binary digits of `n` (0 for 0), by fuel recursion so that the
kernel can evaluate it. -/
def bitLenAux : Nat → Nat → Nat
  | 0, _ => 0
  | fuel + 1, n => if n = 0 then 0 else bitLenAux fuel (n / 2) + 1

def bitLen (n : Nat) : Nat := bitLenAux n n

/-- Nearest integer to `num / den`, ties to even: the rounding used both for
significands and by Python's `round`. -/
def rdivNE (num den : Nat) : Nat :=
  let q := num / den
  let r := num % den
  if 2 * r < den then q
  else if den < 2 * r then q + 1
  else if q % 2 = 0 then q else q + 1

/-- Nearest-even integer to `(a / b) * 2 ^ p`, in exact integer arithmetic. -/
def scaledRound (a b : Nat) (p : Int) : Nat :=
  if 0 ≤ p then rdivNE (a * 2 ^ p.toNat) b else rdivNE a (b * 2 ^ (-p).toNat)

/-- The IEEE-754 binary64 value nearest to `a / b` (round to nearest, ties to
even), for `a, b ≥ 1`, returned as a significand-exponent pair `(m, e)` with
`2 ^ 52 ≤ m < 2 ^ 53` and value `m * 2 ^ e`.  The significand is first rounded
at the spacing of the lower binade and redone one binade up when the result
carries past 53 bits.  The exponent is unbounded: overflow and subnormals of
binary64 would need counts or totals around `2 ^ 1000`, beyond any realizable
log. -/
def floatOfRat (a b : Nat) : Nat × Int :=
  let d : Int := (bitLen a : Int) - (bitLen b : Int)
  let p : Int := 52 - d
  let m1 := scaledRound a b (p + 1)
  if m1 < 2 ^ 53 then (m1, -(p + 1))
  else
    let m0 := scaledRound a b p
    if m0 = 2 ^ 53 then (2 ^ 52, -p + 1) else (m0, -p)

/-- Binary64 multiplication of `m * 2 ^ e` by the exactly representable 100:
the exact product, rounded back to a 53-bit significand (nearest, ties to
even). -/
def floatMul100 (m : Nat) (e : Int) : Nat × Int :=
  let mp := m * 100
  let k := bitLen mp - 53
  let m2 := rdivNE mp (2 ^ k)
  if m2 = 2 ^ 53 then (2 ^ 52, e + k + 1) else (m2, e + k)

/-- Models the program's `round((count / total) * 100)` faithfully as
binary64 arithmetic: `count / total` is the correctly rounded double of the
integer quotient (CPython's true division), the product with 100 is the
correctly rounded double of the exact product, and Python's `round` takes
the nearest integer to that double's exact value, ties to even.  At 23 of 40
the double product lies strictly below 57.5, so the result is 57, not the 58
of exact rational rounding.  `total = 0` never reaches this call in the
source (the denominator is `knot_totals.get(knot, 1)`, at least 1). -/
def pyRound100 (count total : Nat) : Nat :=
  if count = 0 ∨ total = 0 then 0
  else
    let me := floatOfRat count total
    let me2 := floatMul100 me.1 me.2
    if 0 ≤ me2.2 then me2.1 * 2 ^ me2.2.toNat
    else rdivNE me2.1 (2 ^ (-me2.2).toNat)

structure ChoiceStat where
  total : Nat
  percentage : Nat
deriving DecidableEq, Repr

structure ChoiceStatsResult where
  choices : List (String × ChoiceStat)
deriving DecidableEq, Repr

/-- Models `result[choice_id] = v` on the insertion-ordered result dict. -/
def setK {β : Type} : List (String × β) → String → β → List (String × β)
  | [], k, v => [(k, v)]
  | (k', v') :: rest, k, v =>
      if k' = k then (k', v) :: rest else (k', v') :: setK rest k v

/-- The response entry built for one requested choice id. -/
def answerFor (kt : List (String × Nat)) (cc : List (String × CCount))
    (cid : String) : ChoiceStat :=
  match lookupA cc cid with
  | some data => ⟨data.count, pyRound100 data.count ((lookupA kt (knotOfId cid)).getD 1)⟩
  | none => ⟨0, 0⟩

/-- Models `compute_choice_stats`. -/
def compute_choice_stats (entries : List Entry) (choice_ids : List String) :
    ChoiceStatsResult :=
  let kt := knotTotalsOf entries
  let cc := choiceCountsOf entries
  ⟨choice_ids.foldl (fun r cid => setK r cid (answerFor kt cc cid)) []⟩

/-- Number of choice entries whose choice identifier is `cid`. -/
def keyCount (entries : List Entry) (cid : String) : Nat :=
  (entries.filter isChoiceB).countP (fun c => choiceKey c == cid)

/-- Number of choice entries attributed to knot `k` by `compute_choice_stats`. -/
def knotCount (entries : List Entry) (k : String) : Nat :=
  (entries.filter isChoiceB).countP (fun c => choiceKnot c == k)

/-- Number of choice entries attributed to path `p` by `top_paths`. -/
def pathCount (entries : List Entry) (p : String) : Nat :=
  (entries.filter isChoiceB).countP (fun c => pathKey c == p)

/-! ### Association-list lemmas -/

theorem lookupA_nil {κ β : Type} [DecidableEq κ] (k : κ) :
    lookupA ([] : List (κ × β)) k = none := rfl

theorem lookupA_cons {κ β : Type} [DecidableEq κ] (k' : κ) (v : β) (rest : List (κ × β)) (k : κ) :
    lookupA ((k', v) :: rest) k = if k' = k then some v else lookupA rest k := rfl

theorem lookupA_mem {κ β : Type} [DecidableEq κ] :
    ∀ {m : List (κ × β)} {k : κ} {v : β}, lookupA m k = some v → (k, v) ∈ m
  | (k', v') :: rest, k, v, h => by
    rw [lookupA_cons] at h
    by_cases hkk : k' = k
    · subst hkk
      rw [if_pos rfl] at h
      exact (Option.some_inj.mp h) ▸ List.mem_cons_self _ _
    · rw [if_neg hkk] at h
      exact List.mem_cons_of_mem _ (lookupA_mem h)

theorem mem_lookupA {κ β : Type} [DecidableEq κ] :
    ∀ {m : List (κ × β)}, (m.map Prod.fst).Nodup →
      ∀ {k : κ} {v : β}, (k, v) ∈ m → lookupA m k = some v
  | (k', v') :: rest, hnd, k, v, h => by
    rw [List.map_cons, List.nodup_cons] at hnd
    rcases List.mem_cons.mp h with h1 | h1
    · rw [Prod.mk.injEq] at h1
      obtain ⟨rfl, rfl⟩ := h1
      rw [lookupA_cons, if_pos rfl]
    · have hkk : k' ≠ k := by
        intro he; subst he
        exact hnd.1 (List.mem_map.mpr ⟨(k', v), h1, rfl⟩)
      rw [lookupA_cons, if_neg hkk]
      exact mem_lookupA hnd.2 h1

theorem lookupA_bump (m : List (String × Nat)) (k p : String) :
    lookupA (bump m k) p =
      if k = p then some ((lookupA m p).getD 0 + 1) else lookupA m p := by
  induction m with
  | nil => by_cases h : k = p <;> simp [bump, lookupA, h]
  | cons kv rest ih =>
    obtain ⟨k', v⟩ := kv
    by_cases h1 : k' = k
    · subst h1
      by_cases h2 : k' = p <;> simp [bump, lookupA, h2]
    · by_cases h2 : k' = p
      · subst h2
        have h1' : k ≠ k' := fun he => h1 he.symm
        simp [bump, lookupA, h1, h1']
      · simp [bump, lookupA, h1, h2, ih]

theorem keys_bump (m : List (String × Nat)) (k : String) :
    (bump m k).map Prod.fst =
      if k ∈ m.map Prod.fst then m.map Prod.fst else m.map Prod.fst ++ [k] := by
  induction m with
  | nil => simp [bump]
  | cons kv rest ih =>
    obtain ⟨k', v⟩ := kv
    by_cases h1 : k' = k
    · subst h1; simp [bump]
    · have h1' : k ≠ k' := fun he => h1 he.symm
      by_cases h2 : k ∈ rest.map Prod.fst <;> simp [bump, h1, h1', h2, ih]

theorem nodup_keys_bump {m : List (String × Nat)} (h : (m.map Prod.fst).Nodup)
    (k : String) : ((bump m k).map Prod.fst).Nodup := by
  rw [keys_bump]
  by_cases hk : k ∈ m.map Prod.fst
  · simpa [hk] using h
  · rw [if_neg hk]
    refine List.nodup_append.mpr ⟨h, List.nodup_singleton _, ?_⟩
    intro a ha hb
    rw [List.mem_singleton] at hb
    exact hk (hb ▸ ha)

section BumpFold

variable {α : Type} (f : α → String)

theorem bumpFold_getD (cs : List α) :
    ∀ (m : List (String × Nat)) (p : String),
      (lookupA (cs.foldl (fun m c => bump m (f c)) m) p).getD 0 =
        (lookupA m p).getD 0 + List.countP (fun c => f c == p) cs := by
  induction cs with
  | nil => intro m p; simp
  | cons c rest ih =>
    intro m p
    rw [List.foldl_cons, ih, List.countP_cons, lookupA_bump]
    by_cases h : f c = p
    · simp only [h, if_pos, beq_self_eq_true, if_true, Option.getD_some]
      omega
    · simp [h]

theorem bumpFold_none (cs : List α) :
    ∀ (m : List (String × Nat)) (p : String),
      lookupA (cs.foldl (fun m c => bump m (f c)) m) p = none ↔
        (lookupA m p = none ∧ List.countP (fun c => f c == p) cs = 0) := by
  induction cs with
  | nil => intro m p; simp
  | cons c rest ih =>
    intro m p
    rw [List.foldl_cons, ih, List.countP_cons, lookupA_bump]
    by_cases h : f c = p
    · simp [h]
    · simp [h]

theorem bumpFold_nodup_keys (cs : List α) :
    ∀ (m : List (String × Nat)), (m.map Prod.fst).Nodup →
      ((cs.foldl (fun m c => bump m (f c)) m).map Prod.fst).Nodup := by
  induction cs with
  | nil => intro m h; simpa using h
  | cons c rest ih =>
    intro m h
    exact ih _ (nodup_keys_bump h _)

theorem bumpFold_some (cs : List α) (p : String)
    (h : 0 < List.countP (fun c => f c == p) cs) :
    lookupA (cs.foldl (fun m c => bump m (f c)) []) p =
      some (List.countP (fun c => f c == p) cs) := by
  cases hc : lookupA (cs.foldl (fun m c => bump m (f c)) []) p with
  | none =>
    have := ((bumpFold_none f cs [] p).mp hc).2
    omega
  | some v =>
    have hg := bumpFold_getD f cs [] p
    rw [hc] at hg
    simp only [lookupA_nil, Option.getD_some, Option.getD_none, Nat.zero_add] at hg
    exact congrArg some hg

end BumpFold

/-! ### Set-as-list lemmas -/

theorem mem_addNew (l : List String) (x s : String) :
    s ∈ addNew l x ↔ s ∈ l ∨ s = x := by
  unfold addNew
  by_cases h : x ∈ l
  · rw [if_pos h]
    constructor
    · exact Or.inl
    · rintro (hs | rfl)
      · exact hs
      · exact h
  · rw [if_neg h]
    simp [List.mem_append]

theorem nodup_addNew {l : List String} (h : l.Nodup) (x : String) :
    (addNew l x).Nodup := by
  unfold addNew
  by_cases hx : x ∈ l
  · simpa [hx] using h
  · rw [if_neg hx]
    refine List.nodup_append.mpr ⟨h, List.nodup_singleton _, ?_⟩
    intro a ha hb
    rw [List.mem_singleton] at hb
    exact hx (hb ▸ ha)

section AddNewFold

variable {α : Type} (f : α → String)

theorem addNewFold_mem (cs : List α) :
    ∀ (l : List String) (s : String),
      s ∈ cs.foldl (fun l c => addNew l (f c)) l ↔ s ∈ l ∨ ∃ c ∈ cs, f c = s := by
  induction cs with
  | nil => simp
  | cons c rest ih =>
    intro l s
    rw [List.foldl_cons, ih, mem_addNew]
    constructor
    · rintro ((h | h) | ⟨c', hc', he⟩)
      · exact Or.inl h
      · exact Or.inr ⟨c, List.mem_cons_self _ _, h.symm⟩
      · exact Or.inr ⟨c', List.mem_cons_of_mem _ hc', he⟩
    · rintro (h | ⟨c', hc', he⟩)
      · exact Or.inl (Or.inl h)
      · rcases List.mem_cons.mp hc' with rfl | hc''
        · exact Or.inl (Or.inr he.symm)
        · exact Or.inr ⟨c', hc'', he⟩

theorem addNewFold_nodup (cs : List α) :
    ∀ (l : List String), l.Nodup → (cs.foldl (fun l c => addNew l (f c)) l).Nodup := by
  induction cs with
  | nil => intro l h; simpa using h
  | cons c rest ih => intro l h; exact ih _ (nodup_addNew h _)

end AddNewFold

/-! ### Projections of the `compute_path_stats` loop -/

theorem pathFold_fst (cs : List Entry) :
    ∀ acc, (cs.foldl pathStep acc).1 =
      cs.foldl (fun l c => addNew l (sidOf c)) acc.1 := by
  induction cs with
  | nil => intro acc; rfl
  | cons c rest ih =>
    intro acc
    rw [List.foldl_cons, List.foldl_cons, ih]
    rfl

theorem pathFold_snd (cs : List Entry) :
    ∀ acc, (cs.foldl pathStep acc).2 =
      cs.foldl (fun bp c => updPath bp (pathKey c) (idxKey c) (txtKey c)) acc.2 := by
  induction cs with
  | nil => intro acc; rfl
  | cons c rest ih =>
    intro acc
    rw [List.foldl_cons, List.foldl_cons, ih]
    rfl

/-! ### Claim C1 -/

/-- A non-choice entry carrying a session id: the input on which the claim
and the code disagree. -/
def exL1 : List Entry := [⟨some "event", some "s1", some 0, none, none⟩]

/-- C1 (counterexample): on a log whose only entry is a non-choice entry with
session id s1, `uniqueSessions` is 0 while the number of distinct session ids
over all entries is 1, so the claim as stated is false. -/
theorem c1_counterexample :
    ¬ ((compute_path_stats exL1).uniqueSessions = ((exL1.map sidOf).dedup).length) := by
  decide

/-- C1 (amended): `uniqueSessions` equals the number of distinct `sessionId`
values over the choice entries only (absent counted as the empty string);
non-choice entries contribute nothing. -/
theorem c1_amended (entries : List Entry) :
    (compute_path_stats entries).uniqueSessions =
      (((entries.filter isChoiceB).map sidOf).dedup).length := by
  have hfst : (compute_path_stats entries).uniqueSessions =
      ((entries.filter isChoiceB).foldl (fun l c => addNew l (sidOf c)) []).length := by
    simp only [compute_path_stats, pathFold]
    rw [pathFold_fst]
  rw [hfst]
  have hnd : ((entries.filter isChoiceB).foldl (fun l c => addNew l (sidOf c)) []).Nodup :=
    addNewFold_nodup sidOf _ [] List.nodup_nil
  refine List.Perm.length_eq ?_
  refine (List.perm_ext_iff_of_nodup hnd (List.nodup_dedup _)).mpr ?_
  intro a
  rw [addNewFold_mem, List.mem_dedup, List.mem_map]
  simp

/-! ### Lemmas on the `choice_counts` dict -/

theorem lookupA_bumpCC (m : List (String × CCount)) (k knot p : String) :
    lookupA (bumpCC m k knot) p =
      if k = p then
        some (match lookupA m p with
              | some v => ⟨v.count + 1, v.knot⟩
              | none => ⟨1, knot⟩)
      else lookupA m p := by
  induction m with
  | nil => by_cases h : k = p <;> simp [bumpCC, lookupA, h]
  | cons kv rest ih =>
    obtain ⟨k', v⟩ := kv
    by_cases h1 : k' = k
    · subst h1
      by_cases h2 : k' = p <;> simp [bumpCC, lookupA, h2]
    · by_cases h2 : k' = p
      · subst h2
        have h1' : k ≠ k' := fun he => h1 he.symm
        simp [bumpCC, lookupA, h1, h1']
      · simp [bumpCC, lookupA, h1, h2, ih]

section CCFold

variable {α : Type} (f g : α → String)

theorem ccFold_none (cs : List α) :
    ∀ (m : List (String × CCount)) (p : String),
      lookupA (cs.foldl (fun m c => bumpCC m (f c) (g c)) m) p = none ↔
        (lookupA m p = none ∧ List.countP (fun c => f c == p) cs = 0) := by
  induction cs with
  | nil => intro m p; simp
  | cons c rest ih =>
    intro m p
    rw [List.foldl_cons, ih, List.countP_cons, lookupA_bumpCC]
    by_cases h : f c = p
    · cases hm : lookupA m p <;> simp [h, hm]
    · simp [h]

theorem ccFold_count (cs : List α) :
    ∀ (m : List (String × CCount)) (p : String),
      ((lookupA (cs.foldl (fun m c => bumpCC m (f c) (g c)) m) p).map CCount.count).getD 0 =
        ((lookupA m p).map CCount.count).getD 0 + List.countP (fun c => f c == p) cs := by
  induction cs with
  | nil => intro m p; simp
  | cons c rest ih =>
    intro m p
    rw [List.foldl_cons, ih, List.countP_cons, lookupA_bumpCC]
    by_cases h : f c = p
    · cases hm : lookupA m p <;> simp [h, hm] <;> omega
    · simp [h]

theorem ccFold_some (cs : List α) (p : String)
    (h : 0 < List.countP (fun c => f c == p) cs) :
    ∃ d, lookupA (cs.foldl (fun m c => bumpCC m (f c) (g c)) []) p = some d ∧
      d.count = List.countP (fun c => f c == p) cs := by
  cases hc : lookupA (cs.foldl (fun m c => bumpCC m (f c) (g c)) []) p with
  | none =>
    have := ((ccFold_none f g cs [] p).mp hc).2
    omega
  | some d =>
    refine ⟨d, rfl, ?_⟩
    have hg := ccFold_count f g cs [] p
    rw [hc, lookupA_nil] at hg
    simpa using hg

end CCFold

/-! ### String lemmas for choice identifiers -/

theorem takeWhile_all_append {p : Char → Bool} :
    ∀ (l1 l2 : List Char), (∀ c ∈ l1, p c = true) →
      List.takeWhile p (l1 ++ l2) = l1 ++ List.takeWhile p l2 := by
  intro l1
  induction l1 with
  | nil => intro l2 _; simp
  | cons c rest ih =>
    intro l2 h
    rw [List.cons_append, List.takeWhile_cons, h c (List.mem_cons_self _ _),
      List.cons_append, ih l2 (fun c' hc' => h c' (List.mem_cons_of_mem _ hc')),
      if_pos rfl]

theorem key_data (knot : String) (s : String) :
    (knot ++ ":" ++ s).data = knot.data ++ ':' :: s.data := by
  rw [String.data_append, String.data_append, List.append_assoc]
  rfl

theorem knotOfId_key (knot : String) (idx : Int) (h : ':' ∉ knot.data) :
    knotOfId (knot ++ ":" ++ toString idx) = knot := by
  unfold knotOfId
  rw [key_data]
  rw [if_pos (List.mem_append_right _ (List.mem_cons_self _ _))]
  have hall : ∀ c ∈ knot.data, (fun ch => decide (ch ≠ ':')) c = true := by
    intro c hc
    simp only [decide_eq_true_eq]
    intro he
    exact h (he ▸ hc)
  rw [takeWhile_all_append _ _ hall]
  simp

theorem colon_mem_choiceKey (e : Entry) : ':' ∈ (choiceKey e).data := by
  rw [choiceKey, key_data]
  exact List.mem_append_right _ (List.mem_cons_self _ _)

theorem compute_choice_stats_single (entries : List Entry) (cid : String) :
    compute_choice_stats entries [cid] =
      ⟨[(cid, answerFor (knotTotalsOf entries) (choiceCountsOf entries) cid)]⟩ := rfl

/-! ### Claims C2, C8, C9 -/

/-- C2: for a requested identifier of the form knot:index with a colon-free
knot name that was observed among the choice entries, `compute_choice_stats`
returns total = the observed count of that identifier and percentage =
round(observed count / knot total * 100) computed exactly as the program
does, in binary64 floating point, the denominator being the knot's total
choice count, at least 1. -/
theorem c2 (entries : List Entry) (knot : String) (idx : Int)
    (hcf : ':' ∉ knot.data)
    (hobs : 0 < keyCount entries (knot ++ ":" ++ toString idx)) :
    compute_choice_stats entries [knot ++ ":" ++ toString idx] =
      ⟨[(knot ++ ":" ++ toString idx,
         ⟨keyCount entries (knot ++ ":" ++ toString idx),
          pyRound100 (keyCount entries (knot ++ ":" ++ toString idx))
            (max (knotCount entries knot) 1)⟩)]⟩ := by
  rw [compute_choice_stats_single]
  refine congrArg (fun a => ChoiceStatsResult.mk [(knot ++ ":" ++ toString idx, a)]) ?_
  obtain ⟨d, hd, hdc⟩ :=
    ccFold_some choiceKey choiceKnot (entries.filter isChoiceB)
      (knot ++ ":" ++ toString idx) hobs
  unfold answerFor
  rw [show choiceCountsOf entries =
      (entries.filter isChoiceB).foldl (fun m c => bumpCC m (choiceKey c) (choiceKnot c)) []
    from rfl] at *
  rw [hd, knotOfId_key knot idx hcf]
  by_cases hkc : knotCount entries knot = 0
  · have hnone : lookupA (knotTotalsOf entries) knot = none :=
      (bumpFold_none choiceKnot (entries.filter isChoiceB) [] knot).mpr ⟨rfl, hkc⟩
    rw [hnone]
    simp only [Option.getD_none]
    rw [hdc, hkc, show (0 : Nat) ⊔ 1 = 1 from rfl]
    rfl
  · have hsome : lookupA (knotTotalsOf entries) knot = some (knotCount entries knot) :=
      bumpFold_some choiceKnot (entries.filter isChoiceB) knot (Nat.pos_of_ne_zero hkc)
    rw [hsome]
    simp only [Option.getD_some]
    rw [hdc, Nat.max_eq_left (Nat.one_le_iff_ne_zero.mpr hkc)]
    rfl

/-- C8: a requested identifier that was never observed among the choice
entries yields exactly total 0 and percentage 0, and a bare identifier with
no colon is never observed (every real choice identifier contains a colon). -/
theorem c8 (entries : List Entry) (cid : String) :
    (':' ∉ cid.data → keyCount entries cid = 0) ∧
    (keyCount entries cid = 0 →
      compute_choice_stats entries [cid] = ⟨[(cid, ⟨0, 0⟩)]⟩) := by
  constructor
  · intro h
    refine List.countP_eq_zero.mpr ?_
    intro c _ hbe
    rw [beq_iff_eq] at hbe
    exact absurd (hbe ▸ colon_mem_choiceKey c) h
  · intro h
    rw [compute_choice_stats_single]
    have hnone : lookupA (choiceCountsOf entries) cid = none :=
      (ccFold_none choiceKey choiceKnot (entries.filter isChoiceB) [] cid).mpr ⟨rfl, h⟩
    unfold answerFor
    rw [hnone]

/-- A log of two choice entries whose knot path itself contains a colon. -/
def exC9 : List Entry :=
  [ ⟨some "choice", some "s1", some 1, some ⟨some "a:b", some 0, none⟩, none⟩,
    ⟨some "choice", some "s2", some 2, some ⟨some "a:b", some 0, none⟩, none⟩ ]

/-- C9: the percentage denominator is looked up by the substring of the
requested identifier before its first colon; for the knot a:b with choice
index 0 observed twice and queried as a:b:0, the parse yields the knot a,
the denominator lookup misses and defaults to 1, and the returned percentage
is 200, exceeding 100. -/
theorem c9 :
    knotOfId "a:b:0" = "a" ∧
    lookupA (knotTotalsOf exC9) (knotOfId "a:b:0") = none ∧
    compute_choice_stats exC9 ["a:b:0"] = ⟨[("a:b:0", ⟨2, 200⟩)]⟩ ∧
    100 < 200 := by
  refine ⟨by decide, by decide, by decide, by decide⟩

/-! ### Sums over the path distribution -/

/-- Sum of the `count` fields of one inner map of `by_path`. -/
def innerSum (inner : List (Int × Cell)) : Nat :=
  (inner.map (fun ic => ic.2.count)).sum

/-- Sum of the `count` fields over all cells of `by_path`. -/
def distSum (bp : List (String × List (Int × Cell))) : Nat :=
  (bp.map (fun pi => innerSum pi.2)).sum

/-- Sum of the `count` fields over all cells of the rendered
`pathDistribution`. -/
def distSumS (d : List (String × List (String × Cell))) : Nat :=
  (d.map (fun pi => (pi.2.map (fun ic => ic.2.count)).sum)).sum

theorem innerSum_updCell (inner : List (Int × Cell)) (idx : Int) (txt : String) :
    innerSum (updCell inner idx txt) = innerSum inner + 1 := by
  induction inner with
  | nil =>
    rw [show updCell [] idx txt = [(idx, ⟨1, txt⟩)] from rfl]
    simp [innerSum]
  | cons ic rest ih =>
    obtain ⟨i, c⟩ := ic
    by_cases h : i = idx
    · simp [updCell, h, innerSum]
      omega
    · simp only [updCell, if_neg h, innerSum, List.map_cons, List.sum_cons]
      have := ih
      simp only [innerSum] at this
      omega

theorem distSum_updPath (bp : List (String × List (Int × Cell)))
    (p : String) (idx : Int) (txt : String) :
    distSum (updPath bp p idx txt) = distSum bp + 1 := by
  induction bp with
  | nil =>
    have h1 : distSum (updPath [] p idx txt) = innerSum (updCell [] idx txt) := by
      simp [updPath, distSum]
    rw [h1, innerSum_updCell]
    simp [distSum, innerSum]
  | cons pi rest ih =>
    obtain ⟨p', inner⟩ := pi
    by_cases h : p' = p
    · simp only [updPath, if_pos h, distSum, List.map_cons, List.sum_cons,
        innerSum_updCell]
      omega
    · simp only [updPath, if_neg h, distSum, List.map_cons, List.sum_cons]
      have := ih
      simp only [distSum] at this
      omega

theorem distSum_fold (cs : List Entry) :
    ∀ bp, distSum (cs.foldl
        (fun bp c => updPath bp (pathKey c) (idxKey c) (txtKey c)) bp) =
      distSum bp + cs.length := by
  induction cs with
  | nil => intro bp; simp
  | cons c rest ih =>
    intro bp
    rw [List.foldl_cons, ih, distSum_updPath, List.length_cons]
    omega

theorem distSumS_conv (bp : List (String × List (Int × Cell))) :
    distSumS (bp.map (fun pi => (pi.1, pi.2.map (fun ic => (toString ic.1, ic.2))))) =
      distSum bp := by
  simp only [distSumS, distSum, innerSum, List.map_map]
  refine congrArg List.sum ?_
  apply List.map_congr_left
  intro pi _
  refine congrArg List.sum ?_
  show List.map (fun ic => ic.2.count)
      (List.map (fun ic => (toString ic.1, ic.2)) pi.2) =
    List.map (fun ic => ic.2.count) pi.2
  rw [List.map_map]
  apply List.map_congr_left
  intro ic _
  rfl

/-! ### Claim C4 -/

/-- C4: `totalChoices` is the number of entries of type choice, and the sum
of the `count` fields over all cells of `pathDistribution` equals
`totalChoices`. -/
theorem c4 (entries : List Entry) :
    (compute_path_stats entries).totalChoices = List.countP isChoiceB entries ∧
    distSumS (compute_path_stats entries).pathDistribution =
      (compute_path_stats entries).totalChoices := by
  constructor
  · simp only [compute_path_stats]
    exact ((List.countP_eq_length_filter isChoiceB entries).symm)
  · simp only [compute_path_stats]
    rw [distSumS_conv, pathFold, pathFold_snd, distSum_fold]
    simp [distSum]

/-! ### Cell lookup in `by_path` -/

/-- Lookup of a `(knotPath, choiceIndex)` cell in the two-level dict. -/
def cellAtI (m : List (String × List (Int × Cell))) (p : String) (i : Int) :
    Option Cell :=
  (lookupA m p).bind (fun inner => lookupA inner i)

theorem cellAtI_nil (p : String) (i : Int) : cellAtI [] p i = none := rfl

theorem lookupA_updCell (inner : List (Int × Cell)) (idx : Int) (txt : String)
    (i : Int) :
    lookupA (updCell inner idx txt) i =
      if idx = i then
        some (match lookupA inner i with
              | some c => ⟨c.count + 1, c.text⟩
              | none => ⟨1, txt⟩)
      else lookupA inner i := by
  induction inner with
  | nil => by_cases h : idx = i <;> simp [updCell, lookupA, h]
  | cons ic rest ih =>
    obtain ⟨i', c⟩ := ic
    by_cases h1 : i' = idx
    · subst h1
      by_cases h2 : i' = i <;> simp [updCell, lookupA, h2]
    · by_cases h2 : i' = i
      · subst h2
        have h1' : idx ≠ i' := fun he => h1 he.symm
        simp [updCell, lookupA, h1, h1']
      · simp [updCell, lookupA, h1, h2, ih]

theorem cellAtI_cons (q : String) (inner : List (Int × Cell))
    (rest : List (String × List (Int × Cell))) (p : String) (i : Int) :
    cellAtI ((q, inner) :: rest) p i =
      if q = p then lookupA inner i else cellAtI rest p i := by
  by_cases h : q = p <;> simp [cellAtI, lookupA, h]

theorem cellAtI_updPath (m : List (String × List (Int × Cell)))
    (p' : String) (i' : Int) (t' : String) (p : String) (i : Int) :
    cellAtI (updPath m p' i' t') p i =
      if p' = p ∧ i' = i then
        some (match cellAtI m p i with
              | some c => ⟨c.count + 1, c.text⟩
              | none => ⟨1, t'⟩)
      else cellAtI m p i := by
  induction m with
  | nil =>
    rw [show updPath [] p' i' t' = [(p', updCell [] i' t')] from rfl,
      cellAtI_cons, cellAtI_nil]
    by_cases hp : p' = p
    · by_cases hi : i' = i <;> simp [lookupA_updCell, lookupA, hp, hi]
    · simp [hp, fun h : p' = p ∧ i' = i => hp h.1]
  | cons pi rest ih =>
    obtain ⟨q, inner⟩ := pi
    by_cases hq : q = p'
    · subst hq
      have hup : updPath ((q, inner) :: rest) q i' t' =
          (q, updCell inner i' t') :: rest := by
        simp [updPath]
      rw [hup, cellAtI_cons, cellAtI_cons]
      by_cases hp : q = p
      · subst hp
        rw [if_pos rfl, if_pos rfl, lookupA_updCell]
        by_cases hi : i' = i <;> simp [hi]
      · simp [hp, fun h : q = p ∧ i' = i => hp h.1]
    · have hup : updPath ((q, inner) :: rest) p' i' t' =
          (q, inner) :: updPath rest p' i' t' := by
        simp [updPath, hq]
      rw [hup, cellAtI_cons, cellAtI_cons]
      by_cases hp : q = p
      · subst hp
        have hne : ¬ (p' = q ∧ i' = i) := fun h => hq h.1.symm
        simp [hne]
      · rw [if_neg hp, if_neg hp, ih]

theorem bpFold_cellAt (cs : List Entry) :
    ∀ (bp : List (String × List (Int × Cell))) (p : String) (i : Int),
      cellAtI (cs.foldl
          (fun bp c => updPath bp (pathKey c) (idxKey c) (txtKey c)) bp) p i =
        match cellAtI bp p i with
        | some c =>
          some ⟨c.count +
            (cs.filter (fun e => pathKey e == p && idxKey e == i)).length, c.text⟩
        | none =>
          match cs.filter (fun e => pathKey e == p && idxKey e == i) with
          | [] => none
          | e :: rest => some ⟨rest.length + 1, txtKey e⟩ := by
  induction cs with
  | nil =>
    intro bp p i
    cases h : cellAtI bp p i <;> simp [h]
  | cons c cs' ih =>
    intro bp p i
    rw [List.foldl_cons]
    by_cases hm : pathKey c = p ∧ idxKey c = i
    · have hfc : (c :: cs').filter (fun e => pathKey e == p && idxKey e == i) =
          c :: cs'.filter (fun e => pathKey e == p && idxKey e == i) := by
        rw [List.filter_cons]
        simp [hm.1, hm.2]
      rw [ih, cellAtI_updPath, if_pos hm, hfc]
      cases h0 : cellAtI bp p i with
      | some c0 =>
        simp only [h0, List.length_cons]
        refine congrArg some ?_
        refine congrArg (fun n => Cell.mk n c0.text) ?_
        omega
      | none =>
        simp only [h0]
        cases hf : cs'.filter (fun e => pathKey e == p && idxKey e == i) with
        | nil => simp [hf]
        | cons e rest =>
          simp [hf]
          omega
    · have hfc : (c :: cs').filter (fun e => pathKey e == p && idxKey e == i) =
          cs'.filter (fun e => pathKey e == p && idxKey e == i) := by
        rw [List.filter_cons]
        rcases not_and_or.mp hm with h1 | h1 <;> simp [h1]
      rw [ih, cellAtI_updPath, if_neg hm, hfc]

theorem find_eq_filter_head {α : Type} (p : α → Bool) :
    ∀ l : List α, l.find? p = (l.filter p).head? := by
  intro l
  induction l with
  | nil => rfl
  | cons a rest ih =>
    rw [List.filter_cons]
    cases hp : p a with
    | true => rw [List.find?_cons_of_pos _ hp, if_pos rfl, List.head?_cons]
    | false =>
      rw [List.find?_cons_of_neg _ (by rw [hp]; exact Bool.false_ne_true), ih]
      simp [hp]

/-! ### Claim C7 -/

/-- C7: in `by_path` (of which `pathDistribution` is the string-keyed
rendering), the `text` of the cell at a `(knotPath, choiceIndex)` pair is the
`choiceText` (default empty) of the first choice entry observed for that
pair, and the cell's count is the number of choice entries for the pair, so
later entries only increment the count. -/
theorem c7 (entries : List Entry) (p : String) (i : Int) (cell : Cell)
    (h : cellAtI (by_path entries) p i = some cell) :
    (∃ e, (entries.filter isChoiceB).find?
        (fun c => pathKey c == p && idxKey c == i) = some e ∧
      cell.text = txtKey e) ∧
    cell.count = ((entries.filter isChoiceB).filter
        (fun c => pathKey c == p && idxKey c == i)).length ∧
    (compute_path_stats entries).pathDistribution =
      (by_path entries).map
        (fun pi => (pi.1, pi.2.map (fun ic => (toString ic.1, ic.2)))) := by
  have hbp : by_path entries = (entries.filter isChoiceB).foldl
      (fun bp c => updPath bp (pathKey c) (idxKey c) (txtKey c)) [] := by
    rw [by_path, pathFold, pathFold_snd]
  rw [hbp, bpFold_cellAt, cellAtI_nil] at h
  cases hf : (entries.filter isChoiceB).filter
      (fun c => pathKey c == p && idxKey c == i) with
  | nil => rw [hf] at h; cases h
  | cons e rest =>
    rw [hf] at h
    have hcell : cell = ⟨rest.length + 1, txtKey e⟩ := (Option.some_inj.mp h).symm
    refine ⟨⟨e, ?_, ?_⟩, ?_, ?_⟩
    · rw [find_eq_filter_head, hf]
      rfl
    · rw [hcell]
    · rw [hcell]
      simp
    · rfl

/-! ### Sorting lemmas for `top_paths` -/

theorem filter_orderedInsert_count (x : String × Nat) (l : List (String × Nat))
    (n : Nat) :
    (List.orderedInsert countGe x l).filter (fun y => y.2 == n) =
      if x.2 = n then x :: l.filter (fun y => y.2 == n)
      else l.filter (fun y => y.2 == n) := by
  induction l with
  | nil =>
    by_cases hx : x.2 = n <;> simp [List.orderedInsert, List.filter_cons, hx]
  | cons b l ih =>
    by_cases hc : countGe x b
    · by_cases hx : x.2 = n <;>
        simp [List.orderedInsert, if_pos hc, List.filter_cons, hx]
    · have hb : x.2 < b.2 := Nat.lt_of_not_le hc
      by_cases hx : x.2 = n
      · have hbn : ¬ (b.2 = n) := by omega
        simp [List.orderedInsert, if_neg hc, List.filter_cons, hbn, ih, hx]
      · by_cases hbn : b.2 = n <;>
          simp [List.orderedInsert, if_neg hc, List.filter_cons, hbn, ih, hx]

theorem filter_insertionSort_count (l : List (String × Nat)) (n : Nat) :
    (List.insertionSort countGe l).filter (fun y => y.2 == n) =
      l.filter (fun y => y.2 == n) := by
  induction l with
  | nil => rfl
  | cons x l ih =>
    rw [show List.insertionSort countGe (x :: l) =
        List.orderedInsert countGe x (List.insertionSort countGe l) from rfl,
      filter_orderedInsert_count, List.filter_cons, ih]
    by_cases hx : x.2 = n <;> simp [hx]

/-- The output of `top_paths` is sorted descending by count, for any limit. -/
theorem top_paths_sorted (entries : List Entry) (limit : Nat) :
    (top_paths entries limit).Pairwise (fun a b => b.count ≤ a.count) := by
  unfold top_paths
  rw [List.pairwise_map]
  exact ((List.sorted_insertionSort countGe (pathCountsOf entries)).sublist
    (List.take_sublist _ _))

/-- Every pair recorded in `path_counts` carries the exact occurrence count
of its path, and that count is positive. -/
theorem pathCounts_pair (entries : List Entry) :
    ∀ pc ∈ pathCountsOf entries,
      pc.2 = pathCount entries pc.1 ∧ 0 < pathCount entries pc.1 := by
  intro pc hpc
  obtain ⟨p, n⟩ := pc
  have hnd := bumpFold_nodup_keys pathKey (entries.filter isChoiceB) [] List.nodup_nil
  have hl : lookupA (pathCountsOf entries) p = some n := mem_lookupA hnd hpc
  have hg := bumpFold_getD pathKey (entries.filter isChoiceB) [] p
  rw [show (entries.filter isChoiceB).foldl (fun m c => bump m (pathKey c)) [] =
      pathCountsOf entries from rfl, hl, lookupA_nil] at hg
  simp only [Option.getD_some, Option.getD_none, Nat.zero_add] at hg
  have hpos : 0 < pathCount entries p := by
    rcases Nat.eq_zero_or_pos (pathCount entries p) with h0 | h0
    · have : lookupA (pathCountsOf entries) p = none :=
        (bumpFold_none pathKey (entries.filter isChoiceB) [] p).mpr ⟨rfl, h0⟩
      rw [hl] at this
      cases this
    · exact h0
  exact ⟨hg, hpos⟩

/-! ### Claim C3 -/

/-- C3: for limits N less than or equal to M, `top_paths` at N is the length-N
prefix (hence a subsequence) of `top_paths` at M, and both lists are sorted
in descending order of count. -/
theorem c3 (entries : List Entry) (N M : Nat) (h : N ≤ M) :
    top_paths entries N = (top_paths entries M).take N ∧
    (top_paths entries N).Pairwise (fun a b => b.count ≤ a.count) ∧
    (top_paths entries M).Pairwise (fun a b => b.count ≤ a.count) := by
  refine ⟨?_, top_paths_sorted entries N, top_paths_sorted entries M⟩
  unfold top_paths
  rw [← List.map_take, List.take_take, min_eq_left h]

/-! ### Claim C6 -/

/-- C6: `top_paths` counts occurrences per knot path over the choice entries
(with the path of an entry defaulting to unknown when absent), its output
pairs carry those exact counts, it is sorted descending by count with ties
kept in first-seen (insertion) order — the stable-sort property, stated as:
filtering the sorted list to any fixed count value gives exactly the
first-seen-ordered `path_counts` entries with that count — and when the limit
is at least the number of distinct paths the output covers all of them. -/
theorem c6 (entries : List Entry) (limit : Nat)
    (h : (pathCountsOf entries).length ≤ limit) :
    (∀ tp ∈ top_paths entries limit, tp.count = pathCount entries tp.path) ∧
    (∀ p, (∃ tp ∈ top_paths entries limit, tp.path = p) ↔
      0 < pathCount entries p) ∧
    (top_paths entries limit).length = (pathCountsOf entries).length ∧
    (top_paths entries limit).Pairwise (fun a b => b.count ≤ a.count) ∧
    (∀ n, (sortedPathsOf entries).filter (fun x => x.2 == n) =
        (pathCountsOf entries).filter (fun x => x.2 == n)) := by
  have hperm : List.Perm (sortedPathsOf entries) (pathCountsOf entries) :=
    List.perm_insertionSort countGe _
  have htake : (sortedPathsOf entries).take limit = sortedPathsOf entries :=
    List.take_of_length_le (by rw [hperm.length_eq]; exact h)
  refine ⟨?_, ?_, ?_, top_paths_sorted entries limit, ?_⟩
  · intro tp htp
    obtain ⟨pc, hpc, rfl⟩ := List.mem_map.mp htp
    have hpc' : pc ∈ pathCountsOf entries :=
      hperm.mem_iff.mp ((List.take_sublist _ _).subset hpc)
    exact (pathCounts_pair entries pc hpc').1
  · intro p
    constructor
    · rintro ⟨tp, htp, rfl⟩
      obtain ⟨pc, hpc, rfl⟩ := List.mem_map.mp htp
      have hpc' : pc ∈ pathCountsOf entries :=
        hperm.mem_iff.mp ((List.take_sublist _ _).subset hpc)
      exact (pathCounts_pair entries pc hpc').2
    · intro hp
      have hsome : lookupA (pathCountsOf entries) p = some (pathCount entries p) :=
        bumpFold_some pathKey (entries.filter isChoiceB) p hp
      have hmem : (p, pathCount entries p) ∈ pathCountsOf entries :=
        lookupA_mem hsome
      have hmem' : (p, pathCount entries p) ∈ (sortedPathsOf entries).take limit := by
        rw [htake]
        exact hperm.mem_iff.mpr hmem
      exact ⟨⟨p, pathCount entries p⟩, List.mem_map.mpr ⟨_, hmem', rfl⟩, rfl⟩
  · unfold top_paths
    rw [List.length_map, htake, hperm.length_eq]
  · intro n
    exact filter_insertionSort_count (pathCountsOf entries) n

/-! ### Session-summary lemmas -/

/-- The entries of one session: those whose (defaulted) session id is `sid`. -/
def sessFilter (sid : String) (es : List Entry) : List Entry :=
  es.filter (fun e => sidOf e == sid)

/-- The per-session projection of one loop iteration of
`compute_session_summaries`: how the record of session `sid` evolves. -/
def stepS (sid : String) (acc : Option SessState) (e : Entry) : Option SessState :=
  if sidOf e = sid then
    some (touchSess (acc.getD ⟨sid, tsOf e, tsOf e, 0, []⟩) e)
  else acc

theorem touchSess_sessionId (s : SessState) (e : Entry) :
    (touchSess s e).sessionId = s.sessionId := by
  unfold touchSess
  cases hkp : (payloadOf e).knotPath <;>
    by_cases hc : isChoiceB e <;>
    simp [hkp, hc] <;>
    split <;> rfl

theorem touchSess_startTime (s : SessState) (e : Entry) :
    (touchSess s e).startTime = min s.startTime (tsOf e) := by
  unfold touchSess
  cases hkp : (payloadOf e).knotPath <;>
    by_cases hc : isChoiceB e <;>
    simp [hkp, hc] <;>
    split <;> rfl

theorem touchSess_endTime (s : SessState) (e : Entry) :
    (touchSess s e).endTime = max s.endTime (tsOf e) := by
  unfold touchSess
  cases hkp : (payloadOf e).knotPath <;>
    by_cases hc : isChoiceB e <;>
    simp [hkp, hc] <;>
    split <;> rfl

theorem touchSess_choiceCount (s : SessState) (e : Entry) :
    (touchSess s e).choiceCount =
      s.choiceCount + (if isChoiceB e then 1 else 0) := by
  unfold touchSess
  cases hkp : (payloadOf e).knotPath <;>
    by_cases hc : isChoiceB e <;>
    simp [hkp, hc] <;>
    split <;> rfl

theorem touchSess_paths_none {s : SessState} {e : Entry}
    (h : (payloadOf e).knotPath = none) : (touchSess s e).paths = s.paths := by
  by_cases hc : isChoiceB e <;> simp [touchSess, h, hc]

theorem touchSess_paths_empty {s : SessState} {e : Entry}
    (h : (payloadOf e).knotPath = some "") : (touchSess s e).paths = s.paths := by
  by_cases hc : isChoiceB e <;> simp [touchSess, h, hc]

theorem touchSess_paths_notchoice {s : SessState} {e : Entry}
    (h : isChoiceB e = false) : (touchSess s e).paths = s.paths := by
  cases hkp : (payloadOf e).knotPath <;> simp [touchSess, h, hkp]

theorem touchSess_paths_add {s : SessState} {e : Entry} {kp : String}
    (hc : isChoiceB e = true) (h : (payloadOf e).knotPath = some kp)
    (hke : kp ≠ "") : (touchSess s e).paths = addNew s.paths kp := by
  simp [touchSess, hc, h, hke]

theorem touchSess_paths_mem (s : SessState) (e : Entry) (p : String) :
    p ∈ (touchSess s e).paths ↔
      p ∈ s.paths ∨
        (isChoiceB e = true ∧ (payloadOf e).knotPath = some p ∧ p ≠ "") := by
  by_cases hc : isChoiceB e
  · cases hkp : (payloadOf e).knotPath with
    | none =>
      rw [touchSess_paths_none hkp]
      constructor
      · exact Or.inl
      · rintro (h | ⟨_, hsome, _⟩)
        · exact h
        · cases hsome
    | some kp =>
      by_cases hke : kp = ""
      · subst hke
        rw [touchSess_paths_empty hkp]
        constructor
        · exact Or.inl
        · rintro (h | ⟨_, hsome, hne⟩)
          · exact h
          · exact absurd (Option.some_inj.mp hsome).symm hne
      · rw [touchSess_paths_add hc hkp hke, mem_addNew]
        constructor
        · rintro (h | rfl)
          · exact Or.inl h
          · exact Or.inr ⟨hc, rfl, hke⟩
        · rintro (h | ⟨_, hsome, _⟩)
          · exact Or.inl h
          · exact Or.inr (Option.some_inj.mp hsome).symm
  · rw [touchSess_paths_notchoice (Bool.of_not_eq_true hc)]
    constructor
    · exact Or.inl
    · rintro (h | ⟨hct, _, _⟩)
      · exact h
      · exact absurd hct hc

theorem touchSess_paths_nodup (s : SessState) (e : Entry)
    (h : s.paths.Nodup) : (touchSess s e).paths.Nodup := by
  by_cases hc : isChoiceB e
  · cases hkp : (payloadOf e).knotPath with
    | none => rw [touchSess_paths_none hkp]; exact h
    | some kp =>
      by_cases hke : kp = ""
      · subst hke; rw [touchSess_paths_empty hkp]; exact h
      · rw [touchSess_paths_add hc hkp hke]; exact nodup_addNew h kp
  · rw [touchSess_paths_notchoice (Bool.of_not_eq_true hc)]; exact h

theorem lookupA_upsertSess :
    ∀ (m : List (String × SessState)) (k : String) (fresh : SessState)
      (f : SessState → SessState) (p : String),
      lookupA (upsertSess m k fresh f) p =
        if k = p then some (f ((lookupA m p).getD fresh)) else lookupA m p := by
  intro m
  induction m with
  | nil =>
    intro k fresh f p
    by_cases h : k = p <;> simp [upsertSess, lookupA, h]
  | cons kv rest ih =>
    intro k fresh f p
    obtain ⟨k', v⟩ := kv
    by_cases h1 : k' = k
    · subst h1
      by_cases h2 : k' = p <;> simp [upsertSess, lookupA, h2]
    · by_cases h2 : k' = p
      · subst h2
        have h1' : k ≠ k' := fun he => h1 he.symm
        simp [upsertSess, lookupA, h1, h1']
      · simp [upsertSess, lookupA, h1, h2, ih]

theorem lookupA_sessStep (m : List (String × SessState)) (e : Entry) (p : String) :
    lookupA (sessStep m e) p = stepS p (lookupA m p) e := by
  unfold sessStep stepS
  rw [lookupA_upsertSess]
  by_cases h : sidOf e = p
  · rw [if_pos h, if_pos h, h]
  · rw [if_neg h, if_neg h]

theorem lookupA_sessFold (es : List Entry) :
    ∀ (m : List (String × SessState)) (p : String),
      lookupA (es.foldl sessStep m) p = es.foldl (stepS p) (lookupA m p) := by
  induction es with
  | nil => intro m p; rfl
  | cons e rest ih =>
    intro m p
    rw [List.foldl_cons, List.foldl_cons, ih, lookupA_sessStep]

theorem keys_upsertSess (m : List (String × SessState)) (k : String)
    (fresh : SessState) (f : SessState → SessState) :
    (upsertSess m k fresh f).map Prod.fst =
      if k ∈ m.map Prod.fst then m.map Prod.fst else m.map Prod.fst ++ [k] := by
  induction m with
  | nil => simp [upsertSess]
  | cons kv rest ih =>
    obtain ⟨k', v⟩ := kv
    by_cases h1 : k' = k
    · subst h1; simp [upsertSess]
    · have h1' : k ≠ k' := fun he => h1 he.symm
      by_cases h2 : k ∈ rest.map Prod.fst <;> simp [upsertSess, h1, h1', h2, ih]

theorem nodup_keys_upsertSess {m : List (String × SessState)}
    (h : (m.map Prod.fst).Nodup) (k : String) (fresh : SessState)
    (f : SessState → SessState) :
    ((upsertSess m k fresh f).map Prod.fst).Nodup := by
  rw [keys_upsertSess]
  by_cases hk : k ∈ m.map Prod.fst
  · simpa [hk] using h
  · rw [if_neg hk]
    refine List.nodup_append.mpr ⟨h, List.nodup_singleton _, ?_⟩
    intro a ha hb
    rw [List.mem_singleton] at hb
    exact hk (hb ▸ ha)

theorem sessFold_nodup_keys (es : List Entry) :
    ∀ (m : List (String × SessState)), (m.map Prod.fst).Nodup →
      ((es.foldl sessStep m).map Prod.fst).Nodup := by
  induction es with
  | nil => intro m h; simpa using h
  | cons e rest ih =>
    intro m h
    exact ih _ (nodup_keys_upsertSess h _ _ _)

/-- The invariant tying the running record of session `sid` to the prefix of
entries processed so far: absent exactly when the session has no entry yet,
otherwise carrying the claim's min/max/count/path-set values. -/
def SessInv (sid : String) (processed : List Entry) : Option SessState → Prop
  | none => sessFilter sid processed = []
  | some s =>
      s.sessionId = sid ∧
      s.startTime ∈ (sessFilter sid processed).map tsOf ∧
      (∀ t ∈ (sessFilter sid processed).map tsOf, s.startTime ≤ t) ∧
      s.endTime ∈ (sessFilter sid processed).map tsOf ∧
      (∀ t ∈ (sessFilter sid processed).map tsOf, t ≤ s.endTime) ∧
      s.choiceCount = List.countP isChoiceB (sessFilter sid processed) ∧
      s.paths.Nodup ∧
      (∀ p, p ∈ s.paths ↔ p ≠ "" ∧ ∃ e ∈ processed,
        sidOf e = sid ∧ isChoiceB e = true ∧ (payloadOf e).knotPath = some p)

theorem sessInv_none_iff (sid : String) (processed : List Entry) :
    SessInv sid processed none ↔ sessFilter sid processed = [] := Iff.rfl

theorem sessInv_step {sid : String} {processed : List Entry}
    {acc : Option SessState} (h : SessInv sid processed acc) (e : Entry) :
    SessInv sid (processed ++ [e]) (stepS sid acc e) := by
  by_cases hs : sidOf e = sid
  · have hfe : sessFilter sid (processed ++ [e]) =
        sessFilter sid processed ++ [e] := by
      simp [sessFilter, List.filter_append, hs]
    rw [stepS, if_pos hs]
    cases acc with
    | none =>
      have h0 : sessFilter sid processed = [] := h
      simp only [Option.getD_none]
      refine ⟨?_, ?_, ?_, ?_, ?_, ?_, ?_, ?_⟩
      · rw [touchSess_sessionId]
      · rw [touchSess_startTime, hfe, h0]
        simp
      · intro t ht
        rw [hfe, h0] at ht
        simp at ht
        rw [touchSess_startTime]
        simp [ht]
      · rw [touchSess_endTime, hfe, h0]
        simp
      · intro t ht
        rw [hfe, h0] at ht
        simp at ht
        rw [touchSess_endTime]
        simp [ht]
      · rw [touchSess_choiceCount, hfe, h0]
        by_cases hc : isChoiceB e <;> simp [hc]
      · exact touchSess_paths_nodup _ _ List.nodup_nil
      · intro p
        rw [touchSess_paths_mem]
        constructor
        · rintro (h' | ⟨hct, hkp, hne⟩)
          · cases h'
          · exact ⟨hne, e, List.mem_append_right _ (List.mem_singleton.mpr rfl),
              hs, hct, hkp⟩
        · rintro ⟨hne, e', he', hsid, hct, hkp⟩
          rcases List.mem_append.mp he' with h' | h'
          · have : e' ∈ sessFilter sid processed :=
              List.mem_filter.mpr ⟨h', by simp [hsid]⟩
            rw [h0] at this
            cases this
          · rw [List.mem_singleton] at h'
            subst h'
            exact Or.inr ⟨hct, hkp, hne⟩
    | some s =>
      obtain ⟨h1, h2, h3, h4, h5, h6, h7, h8⟩ := h
      simp only [Option.getD_some]
      refine ⟨?_, ?_, ?_, ?_, ?_, ?_, ?_, ?_⟩
      · rw [touchSess_sessionId]
        exact h1
      · rw [touchSess_startTime, hfe, List.map_append]
        rcases le_total s.startTime (tsOf e) with hle | hle
        · rw [min_eq_left hle]
          exact List.mem_append_left _ h2
        · rw [min_eq_right hle]
          simp
      · intro t ht
        rw [hfe, List.map_append] at ht
        rw [touchSess_startTime]
        rcases List.mem_append.mp ht with h' | h'
        · exact le_trans (min_le_left _ _) (h3 t h')
        · simp at h'
          rw [h']
          exact min_le_right _ _
      · rw [touchSess_endTime, hfe, List.map_append]
        rcases le_total s.endTime (tsOf e) with hle | hle
        · rw [max_eq_right hle]
          simp
        · rw [max_eq_left hle]
          exact List.mem_append_left _ h4
      · intro t ht
        rw [hfe, List.map_append] at ht
        rw [touchSess_endTime]
        rcases List.mem_append.mp ht with h' | h'
        · exact le_trans (h5 t h') (le_max_left _ _)
        · simp at h'
          rw [h']
          exact le_max_right _ _
      · rw [touchSess_choiceCount, hfe, List.countP_append, h6]
        by_cases hc : isChoiceB e <;> simp [hc]
      · exact touchSess_paths_nodup _ _ h7
      · intro p
        rw [touchSess_paths_mem]
        constructor
        · rintro (hp | ⟨hct, hkp, hne⟩)
          · obtain ⟨hne, e', he', rest⟩ := (h8 p).mp hp
            exact ⟨hne, e', List.mem_append_left _ he', rest⟩
          · exact ⟨hne, e, List.mem_append_right _ (List.mem_singleton.mpr rfl),
              hs, hct, hkp⟩
        · rintro ⟨hne, e', he', hsid, hct, hkp⟩
          rcases List.mem_append.mp he' with h' | h'
          · exact Or.inl ((h8 p).mpr ⟨hne, e', h', hsid, hct, hkp⟩)
          · rw [List.mem_singleton] at h'
            subst h'
            exact Or.inr ⟨hct, hkp, hne⟩
  · have hfe : sessFilter sid (processed ++ [e]) = sessFilter sid processed := by
      simp [sessFilter, List.filter_append, hs]
    rw [stepS, if_neg hs]
    cases acc with
    | none =>
      exact (sessInv_none_iff _ _).mpr (hfe.trans h)
    | some s =>
      obtain ⟨h1, h2, h3, h4, h5, h6, h7, h8⟩ := h
      refine ⟨h1, by rw [hfe]; exact h2, by rw [hfe]; exact h3,
        by rw [hfe]; exact h4, by rw [hfe]; exact h5, by rw [hfe]; exact h6,
        h7, ?_⟩
      intro p
      rw [h8 p]
      constructor
      · rintro ⟨hne, e', he', rest⟩
        exact ⟨hne, e', List.mem_append_left _ he', rest⟩
      · rintro ⟨hne, e', he', hsid, rest⟩
        rcases List.mem_append.mp he' with h' | h'
        · exact ⟨hne, e', h', hsid, rest⟩
        · rw [List.mem_singleton] at h'
          subst h'
          exact absurd hsid hs

theorem sessInv_fold (sid : String) :
    ∀ (es processed : List Entry) (acc : Option SessState),
      SessInv sid processed acc →
      SessInv sid (processed ++ es) (es.foldl (stepS sid) acc) := by
  intro es
  induction es with
  | nil =>
    intro processed acc h
    simpa using h
  | cons e rest ih =>
    intro processed acc h
    rw [List.foldl_cons,
      show processed ++ e :: rest = (processed ++ [e]) ++ rest from by simp]
    exact ih _ _ (sessInv_step h e)

theorem sessInv_entries (entries : List Entry) (sid : String) :
    SessInv sid entries (entries.foldl (stepS sid) none) := by
  have h0 : SessInv sid [] none := (sessInv_none_iff sid []).mpr rfl
  have h1 := sessInv_fold sid entries [] none h0
  simpa using h1

/-- The claim's per-session conditions on one output record: start and end
are the min and max timestamp over that session's entries, the choice count
counts its choice entries, paths is the set of distinct non-empty knot paths
of its choice entries, and duration is end minus start. -/
def SummaryOk (entries : List Entry) (r : SessionSummary) : Prop :=
  r.startTime ∈ (sessFilter r.sessionId entries).map tsOf ∧
  (∀ t ∈ (sessFilter r.sessionId entries).map tsOf, r.startTime ≤ t) ∧
  r.endTime ∈ (sessFilter r.sessionId entries).map tsOf ∧
  (∀ t ∈ (sessFilter r.sessionId entries).map tsOf, t ≤ r.endTime) ∧
  r.choiceCount = List.countP isChoiceB (sessFilter r.sessionId entries) ∧
  r.paths.Nodup ∧
  (∀ p, p ∈ r.paths ↔ p ≠ "" ∧ ∃ e ∈ entries,
    sidOf e = r.sessionId ∧ isChoiceB e = true ∧ (payloadOf e).knotPath = some p) ∧
  r.durationMs = r.endTime - r.startTime

theorem summaryOk_of_sessInv {entries : List Entry} {sid : String}
    {s : SessState} (h : SessInv sid entries (some s)) :
    SummaryOk entries
      ⟨s.sessionId, s.startTime, s.endTime, s.choiceCount, s.paths,
        s.endTime - s.startTime⟩ := by
  obtain ⟨h1, h2, h3, h4, h5, h6, h7, h8⟩ := h
  subst h1
  exact ⟨h2, h3, h4, h5, h6, h7, h8, rfl⟩

/-! ### Claim C5 -/

/-- C5: `compute_session_summaries` yields exactly one record per distinct
session id present in the log, and each record satisfies the claim's
conditions: start/end are the min/max timestamp over that session's entries
(choice or not, missing timestamps as 0), choiceCount counts its choice
entries, paths is the duplicate-free set of non-empty knot paths of its
choice entries, and durationMs is endTime minus startTime. -/
theorem c5 (entries : List Entry) :
    ((compute_session_summaries entries).map SessionSummary.sessionId).Nodup ∧
    (∀ sid, (∃ r ∈ compute_session_summaries entries, r.sessionId = sid) ↔
      ∃ e ∈ entries, sidOf e = sid) ∧
    (∀ r ∈ compute_session_summaries entries, SummaryOk entries r) := by
  have hnd : ((entries.foldl sessStep []).map Prod.fst).Nodup :=
    sessFold_nodup_keys entries [] List.nodup_nil
  have hlook : ∀ p, lookupA (entries.foldl sessStep []) p =
      entries.foldl (stepS p) none := by
    intro p
    rw [lookupA_sessFold entries [] p, lookupA_nil]
  have hinv : ∀ p, SessInv p entries (lookupA (entries.foldl sessStep []) p) := by
    intro p
    rw [hlook p]
    exact sessInv_entries entries p
  have hkv : ∀ kv ∈ entries.foldl sessStep [], SessInv kv.1 entries (some kv.2) := by
    intro kv hkvm
    obtain ⟨a, b⟩ := kv
    have hl : lookupA (entries.foldl sessStep []) a = some b := mem_lookupA hnd hkvm
    have h' := hinv a
    rw [hl] at h'
    exact h'
  refine ⟨?_, ?_, ?_⟩
  · simp only [compute_session_summaries, List.map_map]
    have hc : (entries.foldl sessStep []).map
        (SessionSummary.sessionId ∘ fun kv =>
          SessionSummary.mk kv.2.sessionId kv.2.startTime kv.2.endTime
            kv.2.choiceCount kv.2.paths (kv.2.endTime - kv.2.startTime)) =
        (entries.foldl sessStep []).map Prod.fst :=
      List.map_congr_left (fun kv hkvm => (hkv kv hkvm).1)
    rw [hc]
    exact hnd
  · intro sid
    constructor
    · rintro ⟨r, hr, rfl⟩
      simp only [compute_session_summaries] at hr
      obtain ⟨kv, hkvm, rfl⟩ := List.mem_map.mp hr
      have hs := hkv kv hkvm
      obtain ⟨h1, h2, -, -, -, -, -, -⟩ := hs
      obtain ⟨e, he, -⟩ := List.mem_map.mp h2
      have hef := List.mem_filter.mp he
      refine ⟨e, hef.1, ?_⟩
      have hse : sidOf e = kv.1 := by simpa using hef.2
      exact hse.trans h1.symm
    · rintro ⟨e, he, hsid⟩
      have h' := hinv sid
      cases hl : lookupA (entries.foldl sessStep []) sid with
      | none =>
        rw [hl] at h'
        have h0 : sessFilter sid entries = [] := h'
        have hmem : e ∈ sessFilter sid entries :=
          List.mem_filter.mpr ⟨he, by simp [hsid]⟩
        rw [h0] at hmem
        cases hmem
      | some s =>
        rw [hl] at h'
        have hm : (sid, s) ∈ entries.foldl sessStep [] := lookupA_mem hl
        refine ⟨⟨s.sessionId, s.startTime, s.endTime, s.choiceCount, s.paths,
          s.endTime - s.startTime⟩, ?_, h'.1⟩
        simp only [compute_session_summaries]
        exact List.mem_map.mpr ⟨(sid, s), hm, rfl⟩
  · intro r hr
    simp only [compute_session_summaries] at hr
    obtain ⟨kv, hkvm, rfl⟩ := List.mem_map.mp hr
    exact summaryOk_of_sessInv (hkv kv hkvm)

/-! ### Claim C10 -/

/-- C10: a choice entry whose `payload.knotPath` is present but empty is
attributed by `compute_choice_stats` to `context.knot` when that is
non-empty and to unknown otherwise (empty treated as absent by the or-chain),
whereas `compute_path_stats` and `top_paths` keep the empty string itself as
the path key. -/
theorem c10 (e : Entry) (h1 : e.type = some "choice")
    (h2 : (payloadOf e).knotPath = some "") :
    choiceKnot e = (if (contextOf e).knot.getD "" = "" then "unknown"
      else (contextOf e).knot.getD "") ∧
    pathKey e = "" ∧
    ((compute_path_stats [e]).pathDistribution).map Prod.fst = [""] ∧
    (top_paths [e] 10).map TopPath.path = [""] ∧
    (knotTotalsOf [e]).map Prod.fst = [choiceKnot e] := by
  have hce : isChoiceB e = true := by simp [isChoiceB, h1]
  have hfil : List.filter isChoiceB [e] = [e] := by simp [hce]
  have hp2 : pathKey e = "" := by rw [pathKey, h2]; rfl
  refine ⟨?_, hp2, ?_, ?_, ?_⟩
  · rw [choiceKnot, h2]
    rw [show pyOrS (some "") (pyOrS (contextOf e).knot "unknown") =
        pyOrS (contextOf e).knot "unknown" from by simp [pyOrS]]
    cases hk : (contextOf e).knot with
    | none => simp [pyOrS]
    | some k => by_cases hke : k = "" <;> simp [pyOrS, hke]
  · have hpd : (pathFold [e]).2 =
        [(pathKey e, updCell [] (idxKey e) (txtKey e))] := by
      rw [pathFold, hfil]
      rfl
    simp only [compute_path_stats]
    rw [hpd, hp2]
    rfl
  · have hpc : pathCountsOf [e] = [(pathKey e, 1)] := by
      rw [pathCountsOf, hfil]
      rfl
    have hsp : sortedPathsOf [e] = [(pathKey e, 1)] := by
      rw [sortedPathsOf, hpc]
      rfl
    simp [top_paths, hsp, hp2]
  · have hkt : knotTotalsOf [e] = [(choiceKnot e, 1)] := by
      rw [knotTotalsOf, hfil]
      rfl
    simp [hkt]

/-! ### Witness inputs and witnesses -/

/-- A concrete log: four choice entries on knot k, three picking index 0 and
one picking index 1, across two sessions. -/
def exC2 : List Entry :=
  [ ⟨some "choice", some "s1", some 10, some ⟨some "k", some 0, some "Go"⟩, none⟩,
    ⟨some "choice", some "s1", some 20, some ⟨some "k", some 0, some "Go"⟩, none⟩,
    ⟨some "choice", some "s2", some 30, some ⟨some "k", some 0, some "Go"⟩, none⟩,
    ⟨some "choice", some "s2", some 40, some ⟨some "k", some 1, some "Stay"⟩, none⟩ ]

/-- A log with 23 choices of k:0 and 17 of k:1 (knot total 40): an input on
which the binary64 product (23/40)*100 lies strictly below 57.5, so the
program's percentage is 57 where exact rational rounding would give 58. -/
def exC40 : List Entry :=
  List.replicate 23
    ⟨some "choice", some "s1", some 1, some ⟨some "k", some 0, some "A"⟩, none⟩ ++
  List.replicate 17
    ⟨some "choice", some "s1", some 2, some ⟨some "k", some 1, some "B"⟩, none⟩

theorem c2_witness :
    (':' ∉ "k".data) ∧
    0 < keyCount exC2 ("k" ++ ":" ++ toString (0 : Int)) ∧
    compute_choice_stats exC2 ["k" ++ ":" ++ toString (0 : Int)] =
      ⟨[("k" ++ ":" ++ toString (0 : Int), ⟨3, 75⟩)]⟩ ∧
    compute_choice_stats exC2 ["k" ++ ":" ++ toString (1 : Int)] =
      ⟨[("k" ++ ":" ++ toString (1 : Int), ⟨1, 25⟩)]⟩ ∧
    0 < keyCount exC40 ("k" ++ ":" ++ toString (0 : Int)) ∧
    compute_choice_stats exC40 ["k" ++ ":" ++ toString (0 : Int)] =
      ⟨[("k" ++ ":" ++ toString (0 : Int), ⟨23, 57⟩)]⟩ := by
  refine ⟨by decide, by decide, ?_, ?_, by decide, ?_⟩
  · exact (c2 exC2 "k" 0 (by decide) (by decide)).trans (by decide)
  · exact (c2 exC2 "k" 1 (by decide) (by decide)).trans (by decide)
  · exact (c2 exC40 "k" 0 (by decide) (by decide)).trans (by decide)

theorem c3_witness :
    (1 ≤ 2) ∧
    (top_paths exC2 1 = (top_paths exC2 2).take 1 ∧
      (top_paths exC2 1).Pairwise (fun a b => b.count ≤ a.count) ∧
      (top_paths exC2 2).Pairwise (fun a b => b.count ≤ a.count)) :=
  ⟨by decide, c3 exC2 1 2 (by decide)⟩

theorem c5_witness :
    ((compute_session_summaries exC2).map SessionSummary.sessionId).Nodup ∧
    (∀ r ∈ compute_session_summaries exC2, SummaryOk exC2 r) :=
  ⟨(c5 exC2).1, (c5 exC2).2.2⟩

theorem c6_witness :
    (pathCountsOf exC2).length ≤ 10 ∧
    (∀ tp ∈ top_paths exC2 10, tp.count = pathCount exC2 tp.path) :=
  ⟨by decide, (c6 exC2 10 (by decide)).1⟩

theorem c7_witness :
    cellAtI (by_path exC2) "k" 0 = some (⟨3, "Go"⟩ : Cell) ∧
    (∃ e, (exC2.filter isChoiceB).find?
        (fun c => pathKey c == "k" && idxKey c == (0 : Int)) = some e ∧
      (⟨3, "Go"⟩ : Cell).text = txtKey e) :=
  ⟨by decide, (c7 exC2 "k" 0 ⟨3, "Go"⟩ (by decide)).1⟩

theorem c8_witness :
    keyCount exC2 "nocolon" = 0 ∧
    compute_choice_stats exC2 ["nocolon"] = ⟨[("nocolon", ⟨0, 0⟩)]⟩ :=
  ⟨(c8 exC2 "nocolon").1 (by decide),
    (c8 exC2 "nocolon").2 ((c8 exC2 "nocolon").1 (by decide))⟩

/-- A choice entry with an empty `knotPath` and a contextual knot. -/
def eC10 : Entry :=
  ⟨some "choice", some "s9", some 5, some ⟨some "", some 2, some "x"⟩,
    some ⟨some "cave"⟩⟩

theorem c10_witness :
    eC10.type = some "choice" ∧
    (payloadOf eC10).knotPath = some "" ∧
    choiceKnot eC10 = "cave" ∧
    pathKey eC10 = "" ∧
    (top_paths [eC10] 10).map TopPath.path = [""] := by
  have h := c10 eC10 rfl rfl
  exact ⟨rfl, rfl, h.1.trans (by decide), h.2.1, h.2.2.2.1⟩

end Aricanga
